import Mathlib

/-!
Verification development for the alignment-and-compositing core of the
video-scroll-stitcher repository (src/lib/stitcher.ts).

Pixel frames are modelled as their flat RGBA byte arrays, i.e. total
functions from byte index to byte value, exactly as ImageData.data is
indexed in the source: byte ((y * w + x) * 4 + ch) holds channel ch of
the pixel at column x, row y.  All arithmetic the source performs on
indices and scores is integer arithmetic that stays within exact float64
range, so it is embedded over Nat (with Int used where the source can
subtract below zero, namely pixel channel differences).  The running
minimum of the offset search starts at Infinity in the source; it is
embedded as the top element of WithTop Nat.
-/

namespace VSS

/-! ### OffsetEstimator: findOffset (stitcher.ts lines 220-296) -/

/-- The three sampled columns, in source order:
floor(w*0.5), floor(w*0.25), floor(w*0.75). -/
def colsToScan (w : Nat) : List Nat := [w / 2, w / 4, 3 * w / 4]

/-- Sampled row offsets within the signature window:
k = 0, 5, 10, ... while k < searchHeight. -/
def sampleKs (searchHeight : Nat) : List Nat :=
  (List.range ((searchHeight + 4) / 5)).map (fun j => 5 * j)

/-- Absolute difference of one colour channel between the two frames:
Math.abs(prev.data[p] - curr.data[c]). -/
def chDiff (prev curr : Nat → Nat) (p c : Nat) : Nat :=
  ((prev p : Int) - (curr c : Int)).natAbs

/-- The raw dissimilarity accumulated for one candidate scanY:
sum over the three columns and the sampled ks of the R, G and B
channel differences. -/
def rowDiff (prev curr : Nat → Nat) (w sigY scanY sh : Nat) : Nat :=
  ((colsToScan w).map (fun x =>
    ((sampleKs sh).map (fun k =>
      chDiff prev curr (((sigY + k) * w + x) * 4) (((scanY + k) * w + x) * 4) +
      chDiff prev curr (((sigY + k) * w + x) * 4 + 1) (((scanY + k) * w + x) * 4 + 1) +
      chDiff prev curr (((sigY + k) * w + x) * 4 + 2) (((scanY + k) * w + x) * 4 + 2))).sum)).sum

/-- The penalised score of a candidate scanY:
diff + (signatureY - scanY) * 5 with penaltyPerCc = 5. -/
def scoreOf (prev curr : Nat → Nat) (w sigY sh scanY : Nat) : Nat :=
  rowDiff prev curr w sigY scanY sh + (sigY - scanY) * 5

/-- The candidate scan positions, in visit order: scanY from signatureY
down to minScanY in steps of 2. -/
def candList (sigY minScanY : Nat) : List Nat :=
  (List.range ((sigY - minScanY) / 2 + 1)).map (fun i => sigY - 2 * i)

/-- One iteration of the search loop acting on the running
(bestOffset, minDiff) pair; minDiff starts at Infinity (here: top). -/
def scanStep (prev curr : Nat → Nat) (w sigY sh : Nat)
    (acc : Nat × WithTop Nat) (scanY : Nat) : Nat × WithTop Nat :=
  if ((scoreOf prev curr w sigY sh scanY : Nat) : WithTop Nat) < acc.2 then
    (sigY - scanY, ((scoreOf prev curr w sigY sh scanY : Nat) : WithTop Nat))
  else acc

/-- The whole search loop: fold scanStep over the candidate list starting
from bestOffset = 0, minDiff = Infinity. -/
def scanFold (prev curr : Nat → Nat) (w sigY sh : Nat) (cands : List Nat) :
    Nat × WithTop Nat :=
  cands.foldl (scanStep prev curr w sigY sh) (0, ⊤)

/-- searchHeight = floor((h - cropTop - cropBottom) * 0.2); the float
product 0.2 * n never crosses an integer boundary for frame-sized n, so
this is division by 5. -/
def searchHeightOf (h cropTop cropBottom : Nat) : Nat := (h - cropTop - cropBottom) / 5

/-- signatureY = h - cropBottom - searchHeight: top row of the signature
block in the previous frame. -/
def signatureYOf (h cropTop cropBottom : Nat) : Nat :=
  h - cropBottom - searchHeightOf h cropTop cropBottom

/-- minScanY = max(cropTop, signatureY - maxScroll) with
maxScroll = floor(h * 0.5). -/
def minScanYOf (h cropTop cropBottom : Nat) : Nat :=
  max cropTop (signatureYOf h cropTop cropBottom - h / 2)

/-- The scan positions visited by the source's loop for these crop bands. -/
def candsOf (h cropTop cropBottom : Nat) : List Nat :=
  candList (signatureYOf h cropTop cropBottom) (minScanYOf h cropTop cropBottom)

/-- The (bestOffset, minDiff) pair the search loop ends with. -/
def scanResult (prev curr : Nat → Nat) (w h cropTop cropBottom : Nat) : Nat × WithTop Nat :=
  scanFold prev curr w (signatureYOf h cropTop cropBottom)
    (searchHeightOf h cropTop cropBottom) (candsOf h cropTop cropBottom)

/-- findOffset as in the source: early return 0 when searchHeight < 10,
signature window just above the footer, scan limited by maxScroll, final
rejection (return 0) when minDiff - which includes the distance penalty -
exceeds 8000; otherwise the best offset is returned. -/
def findOffset (prev curr : Nat → Nat) (w h cropTop cropBottom : Nat) : Nat :=
  if searchHeightOf h cropTop cropBottom < 10 then 0
  else if ((8000 : Nat) : WithTop Nat) < (scanResult prev curr w h cropTop cropBottom).2 then 0
  else (scanResult prev curr w h cropTop cropBottom).1

/-! ### Generic facts about the search fold -/

theorem scanStep_cases (prev curr : Nat → Nat) (w sigY sh : Nat)
    (acc : Nat × WithTop Nat) (y : Nat) :
    scanStep prev curr w sigY sh acc y =
      (sigY - y, ((scoreOf prev curr w sigY sh y : Nat) : WithTop Nat)) ∨
    scanStep prev curr w sigY sh acc y = acc := by
  unfold scanStep
  split
  · exact Or.inl rfl
  · exact Or.inr rfl

theorem scanStep_snd_le (prev curr : Nat → Nat) (w sigY sh : Nat)
    (acc : Nat × WithTop Nat) (y : Nat) :
    (scanStep prev curr w sigY sh acc y).2 ≤ acc.2 := by
  unfold scanStep
  split
  · exact le_of_lt (by assumption)
  · exact le_rfl

theorem scanFoldFrom_snd_le (prev curr : Nat → Nat) (w sigY sh : Nat) :
    ∀ (l : List Nat) (acc : Nat × WithTop Nat),
      (l.foldl (scanStep prev curr w sigY sh) acc).2 ≤ acc.2 := by
  intro l
  induction l with
  | nil => intro acc; exact le_rfl
  | cons a t ih =>
    intro acc
    exact le_trans (ih _) (scanStep_snd_le prev curr w sigY sh acc a)

theorem scanFoldFrom_le_mem (prev curr : Nat → Nat) (w sigY sh : Nat) :
    ∀ (l : List Nat) (acc : Nat × WithTop Nat) (y : Nat), y ∈ l →
      (l.foldl (scanStep prev curr w sigY sh) acc).2 ≤
        ((scoreOf prev curr w sigY sh y : Nat) : WithTop Nat) := by
  intro l
  induction l with
  | nil => intro acc y hy; cases hy
  | cons a t ih =>
    intro acc y hy
    rcases List.mem_cons.mp hy with rfl | hyt
    · refine le_trans (scanFoldFrom_snd_le prev curr w sigY sh t _) ?_
      unfold scanStep
      split
      · exact le_rfl
      · exact le_of_not_lt (by assumption)
    · exact ih _ y hyt

theorem scanFoldFrom_cases (prev curr : Nat → Nat) (w sigY sh : Nat) :
    ∀ (l : List Nat) (acc : Nat × WithTop Nat),
      l.foldl (scanStep prev curr w sigY sh) acc = acc ∨
      ∃ y ∈ l, l.foldl (scanStep prev curr w sigY sh) acc =
        (sigY - y, ((scoreOf prev curr w sigY sh y : Nat) : WithTop Nat)) := by
  intro l
  induction l with
  | nil => intro acc; exact Or.inl rfl
  | cons a t ih =>
    intro acc
    rcases scanStep_cases prev curr w sigY sh acc a with hpick | hkeep
    · rcases ih (scanStep prev curr w sigY sh acc a) with heq | ⟨y, hy, heq⟩
      · refine Or.inr ⟨a, List.mem_cons_self a t, ?_⟩
        simpa [List.foldl_cons, hpick] using heq
      · exact Or.inr ⟨y, List.mem_cons_of_mem a hy, by simpa [List.foldl_cons] using heq⟩
    · rcases ih acc with heq | ⟨y, hy, heq⟩
      · exact Or.inl (by simpa [List.foldl_cons, hkeep] using heq)
      · exact Or.inr ⟨y, List.mem_cons_of_mem a hy, by simpa [List.foldl_cons, hkeep] using heq⟩

theorem scanFoldFrom_strict (prev curr : Nat → Nat) (w sigY sh : Nat) :
    ∀ (l : List Nat) (acc : Nat × WithTop Nat),
      l.foldl (scanStep prev curr w sigY sh) acc = acc ∨
      (l.foldl (scanStep prev curr w sigY sh) acc).2 < acc.2 := by
  intro l
  induction l with
  | nil => intro acc; exact Or.inl rfl
  | cons a t ih =>
    intro acc
    by_cases hlt : ((scoreOf prev curr w sigY sh a : Nat) : WithTop Nat) < acc.2
    · have hstep : scanStep prev curr w sigY sh acc a =
        (sigY - a, ((scoreOf prev curr w sigY sh a : Nat) : WithTop Nat)) := by
        unfold scanStep; rw [if_pos hlt]
      rcases ih (scanStep prev curr w sigY sh acc a) with heq | hlt2
      · refine Or.inr ?_
        rw [List.foldl_cons, heq, hstep]
        exact hlt
      · refine Or.inr ?_
        rw [List.foldl_cons]
        refine lt_of_lt_of_le hlt2 ?_
        rw [hstep]
        exact le_of_lt hlt
    · have hstep : scanStep prev curr w sigY sh acc a = acc := by
        unfold scanStep; rw [if_neg hlt]
      rw [List.foldl_cons, hstep]
      exact ih acc

theorem scanFoldFrom_keep (prev curr : Nat → Nat) (w sigY sh : Nat) :
    ∀ (l : List Nat) (acc : Nat × WithTop Nat),
      acc.2 = ((0 : Nat) : WithTop Nat) →
      l.foldl (scanStep prev curr w sigY sh) acc = acc := by
  intro l
  induction l with
  | nil => intro acc _; rfl
  | cons a t ih =>
    intro acc hacc
    have hstep : scanStep prev curr w sigY sh acc a = acc := by
      unfold scanStep
      rw [if_neg]
      rw [hacc]
      simp
    rw [List.foldl_cons, hstep]
    exact ih acc hacc

theorem scanFold_result (prev curr : Nat → Nat) (w sigY sh : Nat)
    (l : List Nat) (hne : l ≠ []) :
    ∃ y ∈ l, scanFold prev curr w sigY sh l =
      (sigY - y, ((scoreOf prev curr w sigY sh y : Nat) : WithTop Nat)) := by
  match l, hne with
  | a :: t, _ =>
    have hstep : scanStep prev curr w sigY sh (0, ⊤) a =
        (sigY - a, ((scoreOf prev curr w sigY sh a : Nat) : WithTop Nat)) := by
      unfold scanStep
      rw [if_pos (show ((scoreOf prev curr w sigY sh a : Nat) : WithTop Nat) <
        ((0 : Nat), (⊤ : WithTop Nat)).2 from WithTop.coe_lt_top _)]
    unfold scanFold
    rw [List.foldl_cons, hstep]
    rcases scanFoldFrom_cases prev curr w sigY sh t
        (sigY - a, ((scoreOf prev curr w sigY sh a : Nat) : WithTop Nat)) with heq | ⟨y, hy, heq⟩
    · exact ⟨a, List.mem_cons_self a t, heq⟩
    · exact ⟨y, List.mem_cons_of_mem a hy, heq⟩

theorem scanFoldFrom_tie (prev curr : Nat → Nat) (w sigY sh : Nat) :
    ∀ (l : List Nat) (acc : Nat × WithTop Nat),
      (∀ y ∈ l, acc.2 = ((scoreOf prev curr w sigY sh y : Nat) : WithTop Nat) →
        acc.1 ≤ sigY - y) →
      l.Pairwise (fun a b => sigY - a ≤ sigY - b) →
      ∀ y ∈ l,
        (l.foldl (scanStep prev curr w sigY sh) acc).2 =
          ((scoreOf prev curr w sigY sh y : Nat) : WithTop Nat) →
        (l.foldl (scanStep prev curr w sigY sh) acc).1 ≤ sigY - y := by
  intro l
  induction l with
  | nil => intro acc _ _ y hy; cases hy
  | cons a t ih =>
    intro acc hA hP y hy hfin
    have hPh := (List.pairwise_cons.mp hP).1
    have hPt := (List.pairwise_cons.mp hP).2
    by_cases hlt : ((scoreOf prev curr w sigY sh a : Nat) : WithTop Nat) < acc.2
    · have hstep : scanStep prev curr w sigY sh acc a =
        (sigY - a, ((scoreOf prev curr w sigY sh a : Nat) : WithTop Nat)) := by
        unfold scanStep; rw [if_pos hlt]
      rw [List.foldl_cons, hstep] at hfin ⊢
      rcases List.mem_cons.mp hy with rfl | hyt
      · rcases scanFoldFrom_strict prev curr w sigY sh t
            (sigY - y, ((scoreOf prev curr w sigY sh y : Nat) : WithTop Nat)) with heq | hlt2
        · rw [heq]
        · rw [hfin] at hlt2
          exact absurd hlt2 (lt_irrefl _)
      · refine ih _ ?_ hPt y hyt hfin
        intro z hz hzeq
        exact hPh z hz
    · have hstep : scanStep prev curr w sigY sh acc a = acc := by
        unfold scanStep; rw [if_neg hlt]
      rw [List.foldl_cons, hstep] at hfin ⊢
      rcases List.mem_cons.mp hy with rfl | hyt
      · rcases scanFoldFrom_strict prev curr w sigY sh t acc with heq | hlt2
        · rw [heq] at hfin ⊢
          exact hA y (List.mem_cons_self y t) hfin
        · have hle : acc.2 ≤ ((scoreOf prev curr w sigY sh y : Nat) : WithTop Nat) :=
            le_of_not_lt hlt
          rw [hfin] at hlt2
          exact absurd (lt_of_lt_of_le hlt2 hle) (lt_irrefl _)
      · refine ih acc ?_ hPt y hyt hfin
        intro z hz hzeq
        exact hA z (List.mem_cons_of_mem a hz) hzeq

/-! ### Facts about the candidate list -/

theorem candList_ne_nil (sigY m : Nat) : candList sigY m ≠ [] := by
  unfold candList
  simp

theorem candList_head_mem (sigY m : Nat) : sigY ∈ candList sigY m := by
  unfold candList
  refine List.mem_map.mpr ⟨0, List.mem_range.mpr (Nat.succ_pos _), ?_⟩
  simp

theorem candList_mem_spec (sigY m y : Nat) (hy : y ∈ candList sigY m) :
    y ≤ sigY ∧ ∃ i, 2 * i ≤ sigY - m ∧ y = sigY - 2 * i := by
  unfold candList at hy
  rcases List.mem_map.mp hy with ⟨i, hi, rfl⟩
  have hi' : i < (sigY - m) / 2 + 1 := List.mem_range.mp hi
  constructor
  · exact Nat.sub_le _ _
  · exact ⟨i, by omega, rfl⟩

theorem candList_mem_lower (sigY m y : Nat) (hm : m ≤ sigY)
    (hy : y ∈ candList sigY m) : m ≤ y := by
  rcases candList_mem_spec sigY m y hy with ⟨_, i, hle, rfl⟩
  omega

theorem candList_offsets_mono (sigY m : Nat) :
    (candList sigY m).Pairwise (fun a b => sigY - a ≤ sigY - b) := by
  unfold candList
  rw [List.pairwise_map]
  refine (List.pairwise_lt_range _).imp ?_
  intro i j hij
  omega

theorem candList_cons (sigY m : Nat) :
    candList sigY m =
      sigY :: (List.range ((sigY - m) / 2)).map (fun i => sigY - 2 * (i + 1)) := by
  unfold candList
  rw [List.range_succ_eq_map, List.map_cons, List.map_map]
  simp [Function.comp]

/-! ### Pointwise vanishing of the dissimilarity -/

theorem rowDiff_self (prev : Nat → Nat) (w sigY sh : Nat) :
    rowDiff prev prev w sigY sigY sh = 0 := by
  unfold rowDiff
  apply List.sum_eq_zero
  intro s hs
  rcases List.mem_map.mp hs with ⟨x, _, rfl⟩
  apply List.sum_eq_zero
  intro t ht
  rcases List.mem_map.mp ht with ⟨k, _, rfl⟩
  simp [chDiff]

theorem sampleKs_lt (sh k : Nat) (hk : k ∈ sampleKs sh) : k < sh := by
  unfold sampleKs at hk
  rcases List.mem_map.mp hk with ⟨j, hj, rfl⟩
  have := List.mem_range.mp hj
  omega

theorem rowDiff_sig_uniform (prev curr : Nat → Nat) (w sigY sh c : Nat)
    (hp : ∀ y x ch, sigY ≤ y → y < sigY + sh → ch < 3 → prev ((y * w + x) * 4 + ch) = c)
    (hc : ∀ y x ch, sigY ≤ y → y < sigY + sh → ch < 3 → curr ((y * w + x) * 4 + ch) = c) :
    rowDiff prev curr w sigY sigY sh = 0 := by
  unfold rowDiff
  apply List.sum_eq_zero
  intro s hs
  rcases List.mem_map.mp hs with ⟨x, _, rfl⟩
  apply List.sum_eq_zero
  intro t ht
  rcases List.mem_map.mp ht with ⟨k, hk, rfl⟩
  have hklt := sampleKs_lt sh k hk
  have hyl : sigY ≤ sigY + k := Nat.le_add_right _ _
  have hyh : sigY + k < sigY + sh := by omega
  have e0p := hp (sigY + k) x 0 hyl hyh (by omega)
  have e1p := hp (sigY + k) x 1 hyl hyh (by omega)
  have e2p := hp (sigY + k) x 2 hyl hyh (by omega)
  have e0c := hc (sigY + k) x 0 hyl hyh (by omega)
  have e1c := hc (sigY + k) x 1 hyl hyh (by omega)
  have e2c := hc (sigY + k) x 2 hyl hyh (by omega)
  rw [Nat.add_zero] at e0p e0c
  unfold chDiff
  rw [e0p, e0c, e1p, e1c, e2p, e2c]
  simp

/-- When the first visited candidate (scanY = signatureY) already has
penalised score 0, the loop ends with bestOffset 0 and minDiff 0. -/
theorem scanFold_zero_head (prev curr : Nat → Nat) (w sigY sh m : Nat)
    (h0 : scoreOf prev curr w sigY sh sigY = 0) :
    scanFold prev curr w sigY sh (candList sigY m) = (0, ((0 : Nat) : WithTop Nat)) := by
  unfold scanFold
  rw [candList_cons, List.foldl_cons]
  have hstep : scanStep prev curr w sigY sh (0, ⊤) sigY = (0, ((0 : Nat) : WithTop Nat)) := by
    unfold scanStep
    rw [h0]
    rw [if_pos (show (((0 : Nat)) : WithTop Nat) < ((0 : Nat), (⊤ : WithTop Nat)).2 from
      WithTop.coe_lt_top _)]
    simp
  rw [hstep]
  exact scanFoldFrom_keep prev curr w sigY sh _ _ rfl

/-! ### Claim theorems about findOffset -/

/-- C5: for two pixel-identical frames and any crop bands with
cropTop + cropBottom < h, findOffset returns offset 0. -/
theorem findOffset_identical (prev : Nat → Nat) (w h ct cb : Nat)
    (_hcrop : ct + cb < h) : findOffset prev prev w h ct cb = 0 := by
  unfold findOffset
  by_cases hsh : searchHeightOf h ct cb < 10
  · rw [if_pos hsh]
  · rw [if_neg hsh]
    have h0 : scoreOf prev prev w (signatureYOf h ct cb) (searchHeightOf h ct cb)
        (signatureYOf h ct cb) = 0 := by
      unfold scoreOf
      rw [rowDiff_self]
      simp
    have hres : scanResult prev prev w h ct cb = (0, ((0 : Nat) : WithTop Nat)) := by
      unfold scanResult candsOf
      exact scanFold_zero_head prev prev w _ _ _ h0
    rw [hres]
    simp

theorem findOffset_identical_witness :
    0 + 0 < 50 ∧ findOffset (fun _ => 7) (fun _ => 7) 4 50 0 0 = 0 :=
  ⟨by decide, findOffset_identical (fun _ => 7) 4 50 0 0 (by decide)⟩

/-- C4 amended: on frames uniform of a single colour over the signature
window (prev) and the whole scanned region (curr), findOffset returns 0,
and it does so because the search ends with bestOffset 0 at minimal
penalised score 0 - the rejection threshold is not exceeded. -/
theorem findOffset_uniform (prev curr : Nat → Nat) (w h ct cb c : Nat)
    (hcrop : ct + cb < h)
    (hp : ∀ y x ch, signatureYOf h ct cb ≤ y →
        y < signatureYOf h ct cb + searchHeightOf h ct cb → ch < 3 →
        prev ((y * w + x) * 4 + ch) = c)
    (hc : ∀ y x ch, minScanYOf h ct cb ≤ y →
        y < signatureYOf h ct cb + searchHeightOf h ct cb → ch < 3 →
        curr ((y * w + x) * 4 + ch) = c) :
    findOffset prev curr w h ct cb = 0 ∧
    scanResult prev curr w h ct cb = (0, ((0 : Nat) : WithTop Nat)) := by
  have hsig_ct : ct ≤ signatureYOf h ct cb := by
    unfold signatureYOf searchHeightOf
    omega
  have hmin_le : minScanYOf h ct cb ≤ signatureYOf h ct cb := by
    unfold minScanYOf
    exact max_le hsig_ct (Nat.sub_le _ _)
  have hc' : ∀ y x ch, signatureYOf h ct cb ≤ y →
      y < signatureYOf h ct cb + searchHeightOf h ct cb → ch < 3 →
      curr ((y * w + x) * 4 + ch) = c :=
    fun y x ch h1 h2 h3 => hc y x ch (le_trans hmin_le h1) h2 h3
  have h0 : scoreOf prev curr w (signatureYOf h ct cb) (searchHeightOf h ct cb)
      (signatureYOf h ct cb) = 0 := by
    unfold scoreOf
    rw [rowDiff_sig_uniform prev curr w _ _ c hp hc']
    simp
  have hres : scanResult prev curr w h ct cb = (0, ((0 : Nat) : WithTop Nat)) := by
    unfold scanResult candsOf minScanYOf
    exact scanFold_zero_head prev curr w _ _ _ h0
  refine ⟨?_, hres⟩
  unfold findOffset
  rw [hres]
  by_cases hsh : searchHeightOf h ct cb < 10
  · rw [if_pos hsh]
  · rw [if_neg hsh]
    simp

/-- A uniform grey frame used as concrete input. -/
def uniF : Nat → Nat := fun _ => 100

theorem findOffset_uniform_witness :
    findOffset uniF uniF 4 50 0 0 = 0 ∧
    scanResult uniF uniF 4 50 0 0 = (0, ((0 : Nat) : WithTop Nat)) :=
  findOffset_uniform uniF uniF 4 50 0 0 100 (by decide)
    (fun _ _ _ _ _ _ => rfl) (fun _ _ _ _ _ _ => rfl)

/-- C4 counterexample: on uniform frames findOffset does return 0, but the
minimal score it computes is not above the 8000 rejection threshold; the
spec's stated reason (score exceeds rejection threshold) is false. -/
theorem findOffset_uniform_not_threshold :
    findOffset uniF uniF 4 50 0 0 = 0 ∧
    ¬ ((8000 : Nat) : WithTop Nat) < (scanResult uniF uniF 4 50 0 0).2 := by
  decide

/-- C6: the score used for each candidate is the dissimilarity plus the
distance penalty (signatureY - scanY) * 5; the scan visits offsets in
non-decreasing order; the final minDiff is the minimum of the candidate
scores, attained by the returned candidate; among candidates attaining
that minimum the returned offset is the smallest; findOffset returns the
best offset unless the threshold rejects it. -/
theorem findOffset_tiebreak (prev curr : Nat → Nat) (w h ct cb : Nat)
    (h10 : 10 ≤ searchHeightOf h ct cb) :
    (∀ y, scoreOf prev curr w (signatureYOf h ct cb) (searchHeightOf h ct cb) y =
      rowDiff prev curr w (signatureYOf h ct cb) y (searchHeightOf h ct cb) +
        (signatureYOf h ct cb - y) * 5) ∧
    ((candsOf h ct cb).map (fun y => signatureYOf h ct cb - y)).Pairwise (· ≤ ·) ∧
    (∃ y ∈ candsOf h ct cb,
      scanResult prev curr w h ct cb =
        (signatureYOf h ct cb - y,
         ((scoreOf prev curr w (signatureYOf h ct cb) (searchHeightOf h ct cb) y : Nat) :
           WithTop Nat))) ∧
    (∀ y ∈ candsOf h ct cb,
      (scanResult prev curr w h ct cb).2 ≤
        ((scoreOf prev curr w (signatureYOf h ct cb) (searchHeightOf h ct cb) y : Nat) :
          WithTop Nat)) ∧
    (∀ y ∈ candsOf h ct cb,
      (scanResult prev curr w h ct cb).2 =
        ((scoreOf prev curr w (signatureYOf h ct cb) (searchHeightOf h ct cb) y : Nat) :
          WithTop Nat) →
      (scanResult prev curr w h ct cb).1 ≤ signatureYOf h ct cb - y) ∧
    findOffset prev curr w h ct cb =
      (if ((8000 : Nat) : WithTop Nat) < (scanResult prev curr w h ct cb).2 then 0
       else (scanResult prev curr w h ct cb).1) := by
  refine ⟨fun y => rfl, ?_, ?_, ?_, ?_, ?_⟩
  · unfold candsOf
    rw [List.pairwise_map]
    exact candList_offsets_mono _ _
  · unfold scanResult
    exact scanFold_result prev curr w _ _ _ (candList_ne_nil _ _)
  · intro y hy
    unfold scanResult scanFold
    exact scanFoldFrom_le_mem prev curr w _ _ _ _ y hy
  · intro y hy heq
    unfold scanResult scanFold at heq ⊢
    refine scanFoldFrom_tie prev curr w _ _ (candsOf h ct cb) (0, ⊤) ?_ ?_ y hy heq
    · intro z _ hz
      exact absurd hz.symm (by simp)
    · unfold candsOf
      exact candList_offsets_mono _ _
  · unfold findOffset
    rw [if_neg (not_lt.mpr h10)]

theorem findOffset_tiebreak_witness :
    (∀ y, scoreOf uniF uniF 4 (signatureYOf 50 0 0) (searchHeightOf 50 0 0) y =
      rowDiff uniF uniF 4 (signatureYOf 50 0 0) y (searchHeightOf 50 0 0) +
        (signatureYOf 50 0 0 - y) * 5) ∧
    ((candsOf 50 0 0).map (fun y => signatureYOf 50 0 0 - y)).Pairwise (· ≤ ·) ∧
    (∃ y ∈ candsOf 50 0 0,
      scanResult uniF uniF 4 50 0 0 =
        (signatureYOf 50 0 0 - y,
         ((scoreOf uniF uniF 4 (signatureYOf 50 0 0) (searchHeightOf 50 0 0) y : Nat) :
           WithTop Nat))) ∧
    (∀ y ∈ candsOf 50 0 0,
      (scanResult uniF uniF 4 50 0 0).2 ≤
        ((scoreOf uniF uniF 4 (signatureYOf 50 0 0) (searchHeightOf 50 0 0) y : Nat) :
          WithTop Nat)) ∧
    (∀ y ∈ candsOf 50 0 0,
      (scanResult uniF uniF 4 50 0 0).2 =
        ((scoreOf uniF uniF 4 (signatureYOf 50 0 0) (searchHeightOf 50 0 0) y : Nat) :
          WithTop Nat) →
      (scanResult uniF uniF 4 50 0 0).1 ≤ signatureYOf 50 0 0 - y) ∧
    findOffset uniF uniF 4 50 0 0 =
      (if ((8000 : Nat) : WithTop Nat) < (scanResult uniF uniF 4 50 0 0).2 then 0
       else (scanResult uniF uniF 4 50 0 0).1) :=
  findOffset_tiebreak uniF uniF 4 50 0 0 (by decide)

/-- C7: findOffset returns 0 when searchHeight < 10; otherwise the result
is signatureY - scanY for one of the visited candidates, every candidate
satisfies scanY <= signatureY, and the result is non-negative as an
integer. -/
theorem findOffset_nonneg (prev curr : Nat → Nat) (w h ct cb : Nat) :
    (searchHeightOf h ct cb < 10 → findOffset prev curr w h ct cb = 0) ∧
    (10 ≤ searchHeightOf h ct cb →
      ((∀ y ∈ candsOf h ct cb, y ≤ signatureYOf h ct cb) ∧
       ∃ y ∈ candsOf h ct cb,
         (findOffset prev curr w h ct cb : Int) =
           ((signatureYOf h ct cb : Nat) : Int) - (y : Int))) ∧
    (0 : Int) ≤ (findOffset prev curr w h ct cb : Int) := by
  refine ⟨?_, ?_, by omega⟩
  · intro h10
    unfold findOffset
    rw [if_pos h10]
  · intro h10
    constructor
    · intro y hy
      exact (candList_mem_spec _ _ y hy).1
    · unfold findOffset
      rw [if_neg (not_lt.mpr h10)]
      by_cases hthr : ((8000 : Nat) : WithTop Nat) < (scanResult prev curr w h ct cb).2
      · rw [if_pos hthr]
        refine ⟨signatureYOf h ct cb, ?_, by simp⟩
        unfold candsOf
        exact candList_head_mem _ _
      · rw [if_neg hthr]
        obtain ⟨y, hy, heq⟩ := scanFold_result prev curr w (signatureYOf h ct cb)
          (searchHeightOf h ct cb) (candsOf h ct cb)
          (by unfold candsOf; exact candList_ne_nil _ _)
        have hyle : y ≤ signatureYOf h ct cb := (candList_mem_spec _ _ y hy).1
        refine ⟨y, hy, ?_⟩
        have h1 : (scanResult prev curr w h ct cb).1 = signatureYOf h ct cb - y := by
          unfold scanResult
          rw [heq]
        rw [h1]
        omega

theorem findOffset_nonneg_witness :
    (∀ y ∈ candsOf 50 0 0, y ≤ signatureYOf 50 0 0) ∧
    (∃ y ∈ candsOf 50 0 0,
      (findOffset uniF uniF 4 50 0 0 : Int) =
        ((signatureYOf 50 0 0 : Nat) : Int) - (y : Int)) ∧
    (0 : Int) ≤ (findOffset uniF uniF 4 50 0 0 : Int) :=
  ⟨((findOffset_nonneg uniF uniF 4 50 0 0).2.1 (by decide)).1,
   ((findOffset_nonneg uniF uniF 4 50 0 0).2.1 (by decide)).2,
   (findOffset_nonneg uniF uniF 4 50 0 0).2.2⟩

/-- C10: the returned offset never exceeds signatureY - cropTop nor
floor(h/2), so the strip appended from the current frame starts at a row
at least cropTop + searchHeight, strictly below the header band. -/
theorem findOffset_header_safe (prev curr : Nat → Nat) (w h ct cb : Nat)
    (hcrop : ct + cb < h) :
    findOffset prev curr w h ct cb ≤ signatureYOf h ct cb - ct ∧
    findOffset prev curr w h ct cb ≤ h / 2 ∧
    ((ct : Int) + ((searchHeightOf h ct cb : Nat) : Int) ≤
      (h : Int) - ((findOffset prev curr w h ct cb : Nat) : Int) - (cb : Int)) := by
  have hchar : findOffset prev curr w h ct cb = 0 ∨
      ∃ y ∈ candsOf h ct cb,
        findOffset prev curr w h ct cb = signatureYOf h ct cb - y := by
    unfold findOffset
    by_cases h10 : searchHeightOf h ct cb < 10
    · rw [if_pos h10]
      exact Or.inl rfl
    · rw [if_neg h10]
      by_cases hthr : ((8000 : Nat) : WithTop Nat) < (scanResult prev curr w h ct cb).2
      · rw [if_pos hthr]
        exact Or.inl rfl
      · rw [if_neg hthr]
        obtain ⟨y, hy, heq⟩ := scanFold_result prev curr w (signatureYOf h ct cb)
          (searchHeightOf h ct cb) (candsOf h ct cb)
          (by unfold candsOf; exact candList_ne_nil _ _)
        refine Or.inr ⟨y, hy, ?_⟩
        unfold scanResult
        rw [heq]
  have hsig_ct : ct ≤ signatureYOf h ct cb := by
    unfold signatureYOf searchHeightOf
    omega
  have hmin_le : minScanYOf h ct cb ≤ signatureYOf h ct cb := by
    unfold minScanYOf
    exact max_le hsig_ct (Nat.sub_le _ _)
  rcases hchar with h0 | ⟨y, hy, heq⟩
  · rw [h0]
    refine ⟨Nat.zero_le _, Nat.zero_le _, ?_⟩
    unfold searchHeightOf
    omega
  · have hyle : y ≤ signatureYOf h ct cb := (candList_mem_spec _ _ y hy).1
    have hylo : minScanYOf h ct cb ≤ y := candList_mem_lower _ _ y hmin_le hy
    have hylo_ct : ct ≤ y := le_trans (by unfold minScanYOf; exact le_max_left _ _) hylo
    have hylo_scroll : signatureYOf h ct cb - h / 2 ≤ y :=
      le_trans (by unfold minScanYOf; exact le_max_right _ _) hylo
    rw [heq]
    unfold signatureYOf searchHeightOf at hyle hylo_scroll ⊢
    refine ⟨by omega, by omega, by omega⟩

theorem findOffset_header_safe_witness :
    (0 + 0 < 100) ∧
    (findOffset uniF uniF 4 100 0 0 ≤ signatureYOf 100 0 0 - 0 ∧
     findOffset uniF uniF 4 100 0 0 ≤ 100 / 2 ∧
     ((0 : Int) + ((searchHeightOf 100 0 0 : Nat) : Int) ≤
       (100 : Int) - ((findOffset uniF uniF 4 100 0 0 : Nat) : Int) - (0 : Int))) :=
  ⟨by decide, findOffset_header_safe uniF uniF 4 100 0 0 (by decide)⟩

/-- C1 amended: with searchHeight >= 10, findOffset returns 0 exactly when
the minimal penalty-inclusive score exceeds 8000 or the best penalised
candidate is already at offset 0; the rejection test compares 8000 against
minDiff, which includes the distance penalty. -/
theorem findOffset_reject_penalized (prev curr : Nat → Nat) (w h ct cb : Nat)
    (h10 : 10 ≤ searchHeightOf h ct cb) :
    (findOffset prev curr w h ct cb = 0 ↔
      (((8000 : Nat) : WithTop Nat) < (scanResult prev curr w h ct cb).2 ∨
       (scanResult prev curr w h ct cb).1 = 0)) := by
  unfold findOffset
  rw [if_neg (not_lt.mpr h10)]
  by_cases hthr : ((8000 : Nat) : WithTop Nat) < (scanResult prev curr w h ct cb).2
  · rw [if_pos hthr]
    exact iff_of_true rfl (Or.inl hthr)
  · rw [if_neg hthr]
    refine ⟨fun hz => Or.inr hz, fun hz => ?_⟩
    rcases hz with hz | hz
    · exact absurd hz hthr
    · exact hz

/-- A constant white previous frame for the threshold counterexample. -/
def prevCE : Nat → Nat := fun _ => 255

/-- A current frame (w = 4, h = 100) built so that against prevCE the raw
dissimilarity is 8050 at offset 0, 7995 at offset 2, and at least 8589 at
every other candidate: the minimal raw score is 7995, below the 8000
threshold, while the minimal penalty-inclusive score is 7995 + 10 = 8005,
above it. -/
def currCE : Nat → Nat := fun i =>
  if i / 16 = 80 then (if i = 1284 then 45 else 31)
  else if i / 16 = 85 then 31
  else if i / 16 = 90 then 31
  else if i / 16 = 95 then 31
  else if i / 16 = 78 then (if i = 1252 then 30 else 33)
  else if i / 16 = 83 then 33
  else if i / 16 = 88 then 33
  else if i / 16 = 93 then 33
  else 0

set_option maxRecDepth 8000 in
/-- C1 counterexample: findOffset returns 0 on this input even though the
minimal raw dissimilarity score does not exceed 8000 (a candidate with raw
score 7995 exists); the rejection test is applied to the penalty-inclusive
score, not the raw score. -/
theorem findOffset_raw_reject_false :
    findOffset prevCE currCE 4 100 0 0 = 0 ∧
    ¬ (∀ y ∈ candsOf 100 0 0,
        8000 < rowDiff prevCE currCE 4 (signatureYOf 100 0 0) y (searchHeightOf 100 0 0)) := by
  decide

theorem findOffset_reject_penalized_witness :
    10 ≤ searchHeightOf 100 0 0 ∧
    (findOffset prevCE currCE 4 100 0 0 = 0 ↔
      (((8000 : Nat) : WithTop Nat) < (scanResult prevCE currCE 4 100 0 0).2 ∨
       (scanResult prevCE currCE 4 100 0 0).1 = 0)) :=
  ⟨by decide, findOffset_reject_penalized prevCE currCE 4 100 0 0 (by decide)⟩

/-! ### StaticRegionDetector: detectStaticRegions (stitcher.ts lines 298-389)

The five sampled frames are modelled as a function from sample index
(0..4 used) to flat pixel buffer.  The per-row statistic is the maximum
over consecutive frame pairs of the column-averaged sum of absolute RGB
differences; the average divides by 3, so the statistic lives in Rat.
The two scan loops run while y is strictly below (resp. above) the float
h / 2, i.e. while 2 * y < h (resp. 2 * y > h); they are embedded with a
fuel argument that is large enough (h) never to cut a run short. -/

/-- The three sampled columns of the detector, in source order:
floor(w*0.25), floor(w*0.5), floor(w*0.75). -/
def detectCols (w : Nat) : List Nat := [w / 4, w / 2, 3 * w / 4]

/-- Colour difference of one row between two consecutive sampled frames,
summed over the three columns and divided by the number of columns. -/
def pairDiff (f1 f2 : Nat → Nat) (w y : Nat) : Rat :=
  (((detectCols w).map (fun x =>
      chDiff f1 f2 ((y * w + x) * 4) ((y * w + x) * 4) +
      chDiff f1 f2 ((y * w + x) * 4 + 1) ((y * w + x) * 4 + 1) +
      chDiff f1 f2 ((y * w + x) * 4 + 2) ((y * w + x) * 4 + 2))).sum : Rat) / 3

/-- rowDiffs[y]: the maximum of pairDiff over the 4 consecutive pairs of
the 5 sampled frames, starting from 0. -/
def rowDiffMax (frames : Nat → Nat → Nat) (w y : Nat) : Rat :=
  ((List.range 4).map (fun i => pairDiff (frames i) (frames (i + 1)) w y)).foldl max 0

/-- The top scan: y from 0 while y < h/2; stop at the first row whose
statistic exceeds the noise threshold 15, else set top = y + 1 and
continue.  The current value of top always equals y on entry. -/
def topGo (rd : Nat → Rat) (h : Nat) : Nat → Nat → Nat
  | 0, y => y
  | fuel + 1, y =>
    if 2 * y < h then (if 15 < rd y then y else topGo rd h fuel (y + 1)) else y

/-- The bottom scan: y from h - 1 while y > h/2; stop at the first row
whose statistic exceeds the threshold, else set bottom = h - y and
continue. -/
def botGo (rd : Nat → Rat) (h : Nat) : Nat → Nat → Nat → Nat
  | 0, _, acc => acc
  | fuel + 1, y, acc =>
    if h < 2 * y then (if 15 < rd y then acc else botGo rd h fuel (y - 1) (h - y)) else acc

def detectTop (frames : Nat → Nat → Nat) (w h : Nat) : Nat :=
  topGo (rowDiffMax frames w) h h 0

def detectBottom (frames : Nat → Nat → Nat) (w h : Nat) : Nat :=
  botGo (rowDiffMax frames w) h h (h - 1) 0

/-- detectStaticRegions restricted to its pure core: from the sampled
frames to the (top, bottom) static band heights. -/
def detectStaticRegions (frames : Nat → Nat → Nat) (w h : Nat) : Nat × Nat :=
  (detectTop frames w h, detectBottom frames w h)

theorem topGo_le (rd : Nat → Rat) (h : Nat) :
    ∀ fuel y, topGo rd h fuel y ≤ max y ((h + 1) / 2) := by
  intro fuel
  induction fuel with
  | zero =>
    intro y
    simp only [topGo]
    exact le_max_left _ _
  | succ fuel ih =>
    intro y
    simp only [topGo]
    by_cases hcond : 2 * y < h
    · rw [if_pos hcond]
      by_cases hrd : 15 < rd y
      · rw [if_pos hrd]
        exact le_max_left _ _
      · rw [if_neg hrd]
        refine le_trans (ih (y + 1)) ?_
        have hy1 : y + 1 ≤ (h + 1) / 2 := by omega
        rw [max_eq_right hy1]
        exact le_max_right _ _
    · rw [if_neg hcond]
      exact le_max_left _ _

theorem botGo_le (rd : Nat → Rat) (h : Nat) :
    ∀ fuel y acc, acc ≤ h - h / 2 - 1 → botGo rd h fuel y acc ≤ h - h / 2 - 1 := by
  intro fuel
  induction fuel with
  | zero =>
    intro y acc hacc
    simpa only [botGo] using hacc
  | succ fuel ih =>
    intro y acc hacc
    simp only [botGo]
    by_cases hcond : h < 2 * y
    · rw [if_pos hcond]
      by_cases hrd : 15 < rd y
      · rw [if_pos hrd]
        exact hacc
      · rw [if_neg hrd]
        exact ih (y - 1) (h - y) (by omega)
    · rw [if_neg hcond]
      exact hacc

/-- C2 amended: the detected bands always satisfy top + bottom <= h (so
they never overlap); the strict bound top + bottom < h holds whenever h
is even, but a fully static odd-height video reaches top + bottom = h. -/
theorem detectStaticRegions_bands (frames : Nat → Nat → Nat) (w h : Nat) :
    (detectStaticRegions frames w h).1 + (detectStaticRegions frames w h).2 ≤ h ∧
    (h % 2 = 0 → 1 ≤ h →
      (detectStaticRegions frames w h).1 + (detectStaticRegions frames w h).2 < h) := by
  have htop : detectTop frames w h ≤ (h + 1) / 2 := by
    unfold detectTop
    have := topGo_le (rowDiffMax frames w) h h 0
    simpa using this
  have hbot : detectBottom frames w h ≤ h - h / 2 - 1 := by
    unfold detectBottom
    exact botGo_le _ h h (h - 1) 0 (by omega)
  constructor
  · show detectTop frames w h + detectBottom frames w h ≤ h
    omega
  · intro he h1
    show detectTop frames w h + detectBottom frames w h < h
    omega

theorem detectStaticRegions_bands_witness :
    ((detectStaticRegions (fun _ _ => 0) 4 4).1 + (detectStaticRegions (fun _ _ => 0) 4 4).2 ≤ 4) ∧
    ((detectStaticRegions (fun _ _ => 0) 4 4).1 + (detectStaticRegions (fun _ _ => 0) 4 4).2 < 4) :=
  ⟨(detectStaticRegions_bands (fun _ _ => 0) 4 4).1,
   (detectStaticRegions_bands (fun _ _ => 0) 4 4).2 (by decide) (by decide)⟩

theorem pairDiff_zero (w y : Nat) : pairDiff (fun _ => 0) (fun _ => 0) w y = 0 := by
  unfold pairDiff
  have h : ((detectCols w).map (fun x =>
      chDiff (fun _ => 0) (fun _ => 0) ((y * w + x) * 4) ((y * w + x) * 4) +
      chDiff (fun _ => 0) (fun _ => 0) ((y * w + x) * 4 + 1) ((y * w + x) * 4 + 1) +
      chDiff (fun _ => 0) (fun _ => 0) ((y * w + x) * 4 + 2) ((y * w + x) * 4 + 2))).sum = 0 := by
    apply List.sum_eq_zero
    intro s hs
    rcases List.mem_map.mp hs with ⟨x, _, rfl⟩
    simp [chDiff]
  rw [h]
  norm_num

theorem rowDiffMax_zero (w y : Nat) : rowDiffMax (fun _ _ => 0) w y = 0 := by
  unfold rowDiffMax
  rw [show List.range 4 = [0, 1, 2, 3] from rfl]
  simp [pairDiff_zero]

/-- C2 counterexample: a fully static video of odd height 5 (all five
sampled frames identical) yields top = 3 and bottom = 2, so
top + bottom = 5 = h, violating the claimed invariant top + bottom < h. -/
theorem detectStaticRegions_overlap_at_odd :
    detectStaticRegions (fun _ _ => 0) 4 5 = (3, 2) ∧
    ¬ ((detectStaticRegions (fun _ _ => 0) 4 5).1 +
        (detectStaticRegions (fun _ _ => 0) 4 5).2 < 5) := by
  have hrd : ∀ y, rowDiffMax (fun _ _ => 0) 4 y = 0 := rowDiffMax_zero 4
  have h1 : detectTop (fun _ _ => 0) 4 5 = 3 := by
    unfold detectTop
    norm_num [topGo, hrd]
  have h2 : detectBottom (fun _ _ => 0) 4 5 = 2 := by
    unfold detectBottom
    norm_num [botGo, hrd]
  refine ⟨?_, ?_⟩
  · unfold detectStaticRegions
    rw [h1, h2]
  · show ¬ (detectTop (fun _ _ => 0) 4 5 + detectBottom (fun _ _ => 0) 4 5 < 5)
    rw [h1, h2]
    norm_num

/-! ### Compositor: the master canvas (stitcher.ts lines 44-74 and 100-169)

The master canvas is an owned pixel buffer: a fixed width, a current
height, and the row contents, modelled as a function from row index to
the row's byte content.  The source grows it by copy-and-resize: draw the
old canvas into a temp canvas, enlarge, draw the temp back at the origin
(byte-identical restore of rows [0, oldHeight)), then draw the strip of
the current frame rows [h - offset - cropBottom, h - cropBottom) at the
bottom. -/

/-- Row r of a flat RGBA frame of width w, as a function from byte index
within the row. -/
def frameRow (f : Nat → Nat) (w r : Nat) : Nat → Nat :=
  fun i => f (r * (4 * w) + i)

structure Buffer where
  width : Nat
  height : Nat
  data : Nat → Nat → Nat

/-- The initial master canvas: height h - cropBottom, rows [0, h - cropBottom)
of the first frame (stitcher.ts lines 60-74). -/
def initBuffer (w h cb : Nat) (f : Nat → Nat) : Buffer :=
  ⟨w, h - cb, fun y i => frameRow f w y i⟩

/-- One append (stitcher.ts lines 100-168): height grows by offset, rows
below oldHeight keep their bytes, the new rows copy frame rows
h - offset - cropBottom + j for j < offset. -/
def appendStrip (b : Buffer) (f : Nat → Nat) (h offset cb : Nat) : Buffer :=
  ⟨b.width, b.height + offset,
   fun y i => if y < b.height then b.data y i
              else frameRow f b.width (h - offset - cb + (y - b.height)) i⟩

theorem appendStrip_width (b : Buffer) (f : Nat → Nat) (h offset cb : Nat) :
    (appendStrip b f h offset cb).width = b.width := rfl

theorem appendStrip_height (b : Buffer) (f : Nat → Nat) (h offset cb : Nat) :
    (appendStrip b f h offset cb).height = b.height + offset := rfl

theorem appendStrip_preserves (b : Buffer) (f : Nat → Nat) (h offset cb y i : Nat)
    (hy : y < b.height) : (appendStrip b f h offset cb).data y i = b.data y i := by
  unfold appendStrip
  simp only []
  rw [if_pos hy]

theorem foldl_append_width (h cb : Nat) :
    ∀ (steps : List ((Nat → Nat) × Nat)) (b : Buffer),
      (steps.foldl (fun b s => appendStrip b s.1 h s.2 cb) b).width = b.width := by
  intro steps
  induction steps with
  | nil => intro b; rfl
  | cons s t ih =>
    intro b
    rw [List.foldl_cons, ih]
    rfl

theorem foldl_append_height (h cb : Nat) :
    ∀ (steps : List ((Nat → Nat) × Nat)) (b : Buffer),
      (steps.foldl (fun b s => appendStrip b s.1 h s.2 cb) b).height =
        b.height + (steps.map Prod.snd).sum := by
  intro steps
  induction steps with
  | nil => intro b; simp
  | cons s t ih =>
    intro b
    rw [List.foldl_cons, ih]
    simp [appendStrip_height]
    omega

theorem foldl_append_preserves (h cb : Nat) :
    ∀ (steps : List ((Nat → Nat) × Nat)) (b : Buffer) (y i : Nat), y < b.height →
      (steps.foldl (fun b s => appendStrip b s.1 h s.2 cb) b).data y i = b.data y i := by
  intro steps
  induction steps with
  | nil => intro b y i _; rfl
  | cons s t ih =>
    intro b y i hy
    rw [List.foldl_cons]
    have hy2 : y < (appendStrip b s.1 h s.2 cb).height := by
      rw [appendStrip_height]
      omega
    rw [ih _ y i hy2]
    exact appendStrip_preserves b s.1 h s.2 cb y i hy

/-- C3: starting from the initial buffer of height h - cropBottom,
folding N appendStrip operations with offsets d1..dN keeps the width
constant, yields height exactly (h - cropBottom) + (d1 + ... + dN), and
never changes any byte of a row present after any prefix of the appends
(growth is copy-and-resize, byte-identical on committed rows). -/
theorem compositor_append_spec (w h cb : Nat) (f0 : Nat → Nat)
    (steps : List ((Nat → Nat) × Nat)) :
    (steps.foldl (fun b s => appendStrip b s.1 h s.2 cb) (initBuffer w h cb f0)).width = w ∧
    (steps.foldl (fun b s => appendStrip b s.1 h s.2 cb) (initBuffer w h cb f0)).height =
      (h - cb) + (steps.map Prod.snd).sum ∧
    (∀ n y i,
      y < ((steps.take n).foldl (fun b s => appendStrip b s.1 h s.2 cb)
        (initBuffer w h cb f0)).height →
      (steps.foldl (fun b s => appendStrip b s.1 h s.2 cb) (initBuffer w h cb f0)).data y i =
      ((steps.take n).foldl (fun b s => appendStrip b s.1 h s.2 cb)
        (initBuffer w h cb f0)).data y i) := by
  refine ⟨foldl_append_width h cb steps _, foldl_append_height h cb steps _, ?_⟩
  intro n y i hy
  conv_lhs => rw [← List.take_append_drop n steps]
  rw [List.foldl_append]
  exact foldl_append_preserves h cb (steps.drop n) _ y i hy

theorem compositor_append_spec_witness :
    ([((fun _ => 9 : Nat → Nat), 1)].foldl
        (fun b s => appendStrip b s.1 2 s.2 0) (initBuffer 1 2 0 (fun _ => 7))).data 1 0 =
    (([((fun _ => 9 : Nat → Nat), 1)].take 0).foldl
        (fun b s => appendStrip b s.1 2 s.2 0) (initBuffer 1 2 0 (fun _ => 7))).data 1 0 :=
  (compositor_append_spec 1 2 0 (fun _ => 7) [((fun _ => 9), 1)]).2.2 0 1 0 (by decide)

/-! ### StitchPipeline: one iteration of the sampling loop
(stitcher.ts lines 76-173) -/

structure LoopState where
  buffer : Buffer
  last : Nat → Nat

/-- The body of the sampling loop for one sampled frame: estimate the
offset against the retained previous frame; append only if offset > 0;
always replace the retained frame with the current one. -/
def loopBody (w h ct cb : Nat) (st : LoopState) (frame : Nat → Nat) : LoopState :=
  { buffer := if 0 < findOffset st.last frame w h ct cb then
                appendStrip st.buffer frame h (findOffset st.last frame w h ct cb) cb
              else st.buffer,
    last := frame }

/-- C8: when findOffset returns 0 the iteration performs no append - the
output buffer is unchanged (same dimensions and content) - while the
retained frame is still replaced by the current frame. -/
theorem loopBody_no_match (w h ct cb : Nat) (st : LoopState) (frame : Nat → Nat)
    (hoff : findOffset st.last frame w h ct cb = 0) :
    (loopBody w h ct cb st frame).buffer = st.buffer ∧
    (loopBody w h ct cb st frame).last = frame := by
  unfold loopBody
  rw [hoff]
  exact ⟨rfl, rfl⟩

theorem loopBody_no_match_witness :
    (loopBody 1 1 0 0 ⟨initBuffer 1 1 0 (fun _ => 5), fun _ => 5⟩ (fun _ => 6)).buffer =
      initBuffer 1 1 0 (fun _ => 5) ∧
    (loopBody 1 1 0 0 ⟨initBuffer 1 1 0 (fun _ => 5), fun _ => 5⟩ (fun _ => 6)).last =
      (fun _ => 6) :=
  loopBody_no_match 1 1 0 0 ⟨initBuffer 1 1 0 (fun _ => 5), fun _ => 5⟩ (fun _ => 6) (by decide)

/-! ### Progress reporting (stitcher.ts lines 76-77 and 205)

The loop runs time = step, 2*step, ... while time < duration, reporting
(time / duration) * 100 at the top of each iteration, and reports 100
once after the loop.  Time arithmetic is idealised over Rat (the source
accumulates an exact-model 0.1s step in float64). -/

def sampleStep : Rat := 1 / 10

/-- How many loop iterations run: the number of positive multiples of the
step strictly below the duration. -/
def loopCount (duration : Rat) : Nat := (⌈duration / sampleStep⌉ - 1).toNat

/-- The full sequence of values passed to onProgress over a run. -/
def progressList (duration : Rat) : List Rat :=
  ((List.range (loopCount duration)).map
    (fun i => ((i + 1 : Nat) : Rat) * sampleStep / duration * 100)) ++ [100]

theorem loopCount_time_lt (duration : Rat) (i : Nat) (hi : i < loopCount duration) :
    ((i + 1 : Nat) : Rat) * sampleStep < duration := by
  unfold loopCount at hi
  rw [Int.lt_toNat] at hi
  have hceil : ((i : Int) + 1) < ⌈duration / sampleStep⌉ := by omega
  have hlt : (((i : Int) + 1 : Int) : Rat) < duration / sampleStep := Int.lt_ceil.mp hceil
  have hs : (0 : Rat) < sampleStep := by norm_num [sampleStep]
  rw [lt_div_iff₀ hs] at hlt
  calc ((i + 1 : Nat) : Rat) * sampleStep
      = (((i : Int) + 1 : Int) : Rat) * sampleStep := by push_cast; ring
    _ < duration := hlt

theorem progress_mem_bounds (duration : Rat) (hd : 0 < duration) (p : Rat)
    (hp : p ∈ progressList duration) : 0 ≤ p ∧ p ≤ 100 := by
  unfold progressList at hp
  rcases List.mem_append.mp hp with hp | hp
  · rcases List.mem_map.mp hp with ⟨i, hi, rfl⟩
    have hi' := List.mem_range.mp hi
    have hlt := loopCount_time_lt duration i hi'
    have hs : (0 : Rat) ≤ sampleStep := by norm_num [sampleStep]
    constructor
    · positivity
    · have h1 : ((i + 1 : Nat) : Rat) * sampleStep / duration < 1 :=
        (div_lt_one hd).mpr hlt
      calc ((i + 1 : Nat) : Rat) * sampleStep / duration * 100
          ≤ 1 * 100 := by
            apply mul_le_mul_of_nonneg_right (le_of_lt h1)
            norm_num
        _ = 100 := by norm_num
  · have : p = 100 := by simpa using hp
    rw [this]
    norm_num

theorem progress_map_mono (duration : Rat) (hd : 0 < duration) :
    ((List.range (loopCount duration)).map
      (fun i => ((i + 1 : Nat) : Rat) * sampleStep / duration * 100)).Pairwise (· ≤ ·) := by
  rw [List.pairwise_map]
  refine (List.pairwise_lt_range _).imp ?_
  intro i j hij
  have hc : ((i + 1 : Nat) : Rat) ≤ ((j + 1 : Nat) : Rat) := by
    exact_mod_cast Nat.succ_le_succ (le_of_lt hij)
  have hs : (0 : Rat) ≤ sampleStep := by norm_num [sampleStep]
  apply mul_le_mul_of_nonneg_right _ (by norm_num : (0 : Rat) ≤ 100)
  rw [div_le_div_iff_of_pos_right hd]
  exact mul_le_mul_of_nonneg_right hc hs

/-- C9: over a complete run with duration > 0, every reported progress
value lies in [0, 100], consecutive reports are non-decreasing, and the
final report is exactly 100. -/
theorem progress_spec (duration : Rat) (hd : 0 < duration) :
    (∀ p ∈ progressList duration, 0 ≤ p ∧ p ≤ 100) ∧
    List.Chain' (· ≤ ·) (progressList duration) ∧
    (progressList duration).getLast? = some 100 := by
  refine ⟨fun p hp => progress_mem_bounds duration hd p hp, ?_, ?_⟩
  · unfold progressList
    rw [List.chain'_append]
    refine ⟨(progress_map_mono duration hd).chain', List.chain'_singleton _, ?_⟩
    intro x hx y hy
    have hy100 : y = 100 := by simpa using hy.symm
    obtain ⟨hne, hxe⟩ := List.mem_getLast?_eq_getLast hx
    have hxmem : x ∈ (List.range (loopCount duration)).map
        (fun i => ((i + 1 : Nat) : Rat) * sampleStep / duration * 100) := by
      rw [hxe]
      exact List.getLast_mem hne
    have hxb := progress_mem_bounds duration hd x (by
      unfold progressList
      exact List.mem_append.mpr (Or.inl hxmem))
    rw [hy100]
    exact hxb.2
  · unfold progressList
    exact List.getLast?_concat _

theorem progress_spec_witness :
    (∀ p ∈ progressList 1, 0 ≤ p ∧ p ≤ 100) ∧
    List.Chain' (· ≤ ·) (progressList 1) ∧
    (progressList 1).getLast? = some 100 :=
  progress_spec 1 one_pos

end VSS
